import Mathlib

/-!
# Verification of the RSV codec (`src/core.rs`)

Shallow embedding of `encode_rsv` / `decode_rsv` from `src/core.rs`.

Modelling choices:
* A byte is a `Nat` (`0xFF = 255`, `0xFD = 253`, `0xFE = 254`).
* A Rust `String` is modelled by its UTF-8 byte list; `Option<String>` cells
  become `Option (List Nat)`.  A genuine Rust `String` always satisfies
  `validUtf8` on its bytes.
* `String::from_utf8` is modelled by the boolean validator `validUtf8`
  (the standard UTF-8 table used by Rust's std); the `FromUtf8Error`
  payload is modelled by the offending byte run, which determines it.
* Potential panics (indexing, slicing) are modelled by `Option`:
  `decode_rsv : List Nat → Option (Except DecodeRSVErrors Doc)` where
  `none` represents a panic.  The scan loop `decodeLoop` is driven by
  fuel that equals `bytes.length - i`, matching `for i in 0..bytes.len()`.
-/

namespace RSV

/-- `pub const VALUE_TERMINATOR: u8 = 0xFF;` -/
def VALUE_TERMINATOR : Nat := 0xFF

/-- `pub const ROW_TERMINATOR: u8 = 0xFD;` -/
def ROW_TERMINATOR : Nat := 0xFD

/-- `pub const NULL_VALUE: u8 = 0xFE;` -/
def NULL_VALUE : Nat := 0xFE

/-- A cell: Rust `Option<String>`, the string given by its UTF-8 bytes. -/
abbrev Cell := Option (List Nat)

/-- A row: Rust `Vec<Option<String>>`. -/
abbrev Row := List Cell

/-- A document: Rust `Vec<Vec<Option<String>>>`. -/
abbrev Doc := List Row

/-- The bytes a single cell contributes before its value terminator:
`Some(t) => t.to_string().into_bytes()`, `None => vec![NULL_VALUE]`. -/
def encodeValue : Cell → List Nat
  | some bs => bs
  | none => [NULL_VALUE]

/-- The inner fold of `encode_rsv` over one row: for each cell, append its
bytes and push `VALUE_TERMINATOR`. -/
def encodeRow (row : Row) : List Nat :=
  row.foldl (fun row_result v => row_result ++ encodeValue v ++ [VALUE_TERMINATOR]) []

/-- `encode_rsv` from `src/core.rs`: fold over rows, appending each row's
bytes and pushing `ROW_TERMINATOR` after each row. -/
def encode_rsv (rows : Doc) : List Nat :=
  rows.foldl (fun result row => result ++ encodeRow row ++ [ROW_TERMINATOR]) []

/-- `DecodeRSVErrors` from `src/core.rs`.  `InvalidStringValue` carries the
byte run handed to `String::from_utf8`, which determines the wrapped
`FromUtf8Error`. -/
inductive DecodeRSVErrors where
  | IncompleteRSVDocument : DecodeRSVErrors
  | IncompleteRSVRow : Nat → DecodeRSVErrors
  | InvalidStringValue : List Nat → DecodeRSVErrors
deriving DecidableEq, Repr

/-- Rust UTF-8 continuation byte: `0x80..=0xBF`. -/
def isCont (b : Nat) : Bool := 0x80 ≤ b && b ≤ 0xBF

/-- The UTF-8 lead-byte table exactly as Rust's `String::from_utf8` checks
it (`core::str::validations::run_utf8_validation`): a lead byte determines
the list of allowed `(lo, hi)` ranges for the following continuation
bytes, or `none` if the byte can never start a character.  ASCII stands
alone; 2-byte leads are `C2..DF`; 3-byte leads `E0` (first continuation
`A0..BF`), `E1..EC`/`EE..EF` (`80..BF`), `ED` (`80..9F`); 4-byte leads
`F0` (`90..BF`), `F1..F3` (`80..BF`), `F4` (`80..8F`).  `0xC0, 0xC1` and
everything from `0xF5` up — hence the sentinels `0xFD, 0xFE, 0xFF` — are
never valid. -/
def utf8Start (b : Nat) : Option (List (Nat × Nat)) :=
  if b ≤ 0x7F then some []
  else if 0xC2 ≤ b && b ≤ 0xDF then some [(0x80, 0xBF)]
  else if b = 0xE0 then some [(0xA0, 0xBF), (0x80, 0xBF)]
  else if (0xE1 ≤ b && b ≤ 0xEC) || b = 0xEE || b = 0xEF then
    some [(0x80, 0xBF), (0x80, 0xBF)]
  else if b = 0xED then some [(0x80, 0x9F), (0x80, 0xBF)]
  else if b = 0xF0 then some [(0x90, 0xBF), (0x80, 0xBF), (0x80, 0xBF)]
  else if 0xF1 ≤ b && b ≤ 0xF3 then
    some [(0x80, 0xBF), (0x80, 0xBF), (0x80, 0xBF)]
  else if b = 0xF4 then some [(0x80, 0x8F), (0x80, 0xBF), (0x80, 0xBF)]
  else none

/-- The UTF-8 validation automaton: `expect` lists the `(lo, hi)` ranges
the next bytes must fall in to finish the current character.  On an empty
`expect`, the next byte must be a lead byte (`utf8Start`); the input is
valid iff it ends with `expect` empty. -/
def validUtf8From : List (Nat × Nat) → List Nat → Bool
  | [], [] => true
  | _ :: _, [] => false
  | [], b :: rest =>
    match utf8Start b with
    | none => false
    | some expect => validUtf8From expect rest
  | (lo, hi) :: expect, b :: rest =>
    if lo ≤ b && b ≤ hi then validUtf8From expect rest else false

/-- UTF-8 validity of a byte sequence, as Rust's `String::from_utf8`
decides it: run the automaton from the lead-byte state. -/
def validUtf8 (bs : List Nat) : Bool := validUtf8From [] bs

/-- A cell a Rust program can actually hold: the bytes of a `Some` cell
come from a genuine `String`, hence are valid UTF-8. -/
def validCell : Cell → Bool
  | some bs => validUtf8 bs
  | none => true

/-- A document a Rust program can actually hold (`Vec<Vec<Option<String>>>`). -/
def validDoc (d : Doc) : Bool := d.all fun row => row.all validCell

/-- Rust slice `bytes[s..e]`: panics (`none`) unless `s ≤ e ≤ bytes.len()`. -/
def sliceRange (bytes : List Nat) (s e : Nat) : Option (List Nat) :=
  if s ≤ e ∧ e ≤ bytes.length then some ((bytes.drop s).take (e - s)) else none

/-- The scan loop of `decode_rsv`: `for i in 0..bytes.len()` with mutable
`value_start_index`, `current_row`, `result`.  `fuel` counts the remaining
iterations (`bytes.length - i` at every top-level call), so the loop is
structural and computable.  `none` models a panic (out-of-bounds index or
slice); every Rust indexing operation (`bytes[i]`, `bytes[value_start_index]`,
`bytes[value_start_index..i]`) is modelled by a checked access. -/
def decodeLoop (bytes : List Nat) :
    Nat → Nat → Nat → Row → Doc → Option (Except DecodeRSVErrors Doc)
  | 0, _, _, _, result => some (Except.ok result)
  | fuel + 1, i, value_start_index, current_row, result =>
    match bytes[i]? with
    | none => none
    | some b =>
      if b = VALUE_TERMINATOR then
        match bytes[value_start_index]? with
        | none => none
        | some vb =>
          if i - value_start_index = 0 then
            decodeLoop bytes fuel (i + 1) (i + 1) (current_row ++ [some []]) result
          else if i - value_start_index = 1 ∧ vb = NULL_VALUE then
            decodeLoop bytes fuel (i + 1) (i + 1) (current_row ++ [none]) result
          else
            match sliceRange bytes value_start_index i with
            | none => none
            | some value_bytes =>
              if validUtf8 value_bytes then
                decodeLoop bytes fuel (i + 1) (i + 1) (current_row ++ [some value_bytes]) result
              else
                some (Except.error (DecodeRSVErrors.InvalidStringValue value_bytes))
      else if b = ROW_TERMINATOR then
        if i > 0 ∧ value_start_index ≠ i then
          some (Except.error (DecodeRSVErrors.IncompleteRSVRow (i + 1)))
        else
          decodeLoop bytes fuel (i + 1) (i + 1) [] (result ++ [current_row])
      else
        decodeLoop bytes fuel (i + 1) value_start_index current_row result

/-- `decode_rsv` from `src/core.rs`: the `bytes.last()` pre-check, then the
scan.  `none` models a panic; the Rust function otherwise returns
`Result<Vec<Vec<Option<String>>>, DecodeRSVErrors>`. -/
def decode_rsv (bytes : List Nat) : Option (Except DecodeRSVErrors Doc) :=
  if bytes.getLast? ≠ some ROW_TERMINATOR then
    some (Except.error DecodeRSVErrors.IncompleteRSVDocument)
  else
    decodeLoop bytes bytes.length 0 0 [] []

end RSV

namespace RSV

/-- In a buffer ending in `ROW_TERMINATOR`, the byte at the last index is
`ROW_TERMINATOR`. -/
theorem getElem?_last_of_getLast? (bytes : List Nat)
    (hlast : bytes.getLast? = some ROW_TERMINATOR) (i : Nat)
    (hi : i + 1 = bytes.length) : bytes[i]? = some ROW_TERMINATOR := by
  rw [List.getLast?_eq_getElem?] at hlast
  have h : bytes.length - 1 = i := by omega
  rwa [h] at hlast

/-- Every lead byte accepted by the UTF-8 table is below `0xF5`, and every
continuation range it prescribes stays below `0xC0`. -/
theorem utf8Start_bounds (b : Nat) (expect : List (Nat × Nat))
    (h : utf8Start b = some expect) :
    b < 0xF5 ∧ ∀ p ∈ expect, p.2 ≤ 0xBF := by
  unfold utf8Start at h
  repeat' split at h
  all_goals simp_all only [Bool.and_eq_true, Bool.or_eq_true, decide_eq_true_eq,
    Option.some.injEq, reduceCtorEq]
  all_goals subst h
  all_goals exact ⟨by omega, by decide⟩

/-- Every byte of a word accepted by the UTF-8 automaton is below `0xF5`,
provided the pending continuation ranges stay below `0xC0`. -/
theorem validUtf8From_mem_lt (bs : List Nat) :
    ∀ expect : List (Nat × Nat),
      (∀ p ∈ expect, p.2 ≤ 0xBF) →
      validUtf8From expect bs = true →
      ∀ b ∈ bs, b < 0xF5 := by
  induction bs with
  | nil => intro expect _ _ b hb; cases hb
  | cons b0 rest ih =>
    intro expect hexp h x hx
    cases expect with
    | nil =>
      simp only [validUtf8From] at h
      cases hstart : utf8Start b0 with
      | none => rw [hstart] at h; cases h
      | some expect2 =>
        rw [hstart] at h
        obtain ⟨hb0, hexp2⟩ := utf8Start_bounds b0 expect2 hstart
        rcases List.mem_cons.mp hx with rfl | hx
        · exact hb0
        · exact ih expect2 hexp2 h x hx
    | cons p expect2 =>
      obtain ⟨lo, hi⟩ := p
      simp only [validUtf8From] at h
      by_cases hc : (lo ≤ b0 && b0 ≤ hi) = true
      · rw [if_pos hc] at h
        simp only [Bool.and_eq_true, decide_eq_true_eq] at hc
        have hhi : hi ≤ 0xBF := hexp (lo, hi) (List.mem_cons_self _ _)
        rcases List.mem_cons.mp hx with rfl | hx
        · omega
        · exact ih expect2 (fun p hp => hexp p (List.mem_cons_of_mem _ hp)) h x hx
      · rw [if_neg hc] at h
        cases h

/-- Every byte of a valid UTF-8 word is below `0xF5`; in particular none
of the three sentinel bytes occurs in it. -/
theorem validUtf8_mem_lt (bs : List Nat) (h : validUtf8 bs = true) :
    ∀ b ∈ bs, b < 0xF5 :=
  validUtf8From_mem_lt bs [] (fun p hp => absurd hp (List.not_mem_nil p)) h

/-- The inner fold of `encode_rsv`, generalized over its accumulator. -/
theorem encodeRow_foldl (row : Row) :
    ∀ acc : List Nat,
      row.foldl (fun row_result v => row_result ++ encodeValue v ++ [VALUE_TERMINATOR]) acc
        = acc ++ (row.map (fun c => encodeValue c ++ [VALUE_TERMINATOR])).flatten := by
  induction row with
  | nil => intro acc; simp
  | cons c cs ih =>
    intro acc
    rw [List.foldl_cons, ih]
    simp [List.append_assoc]

/-- `encodeRow` as a flat map: each cell's bytes followed by one value
terminator. -/
theorem encodeRow_eq_flatten (row : Row) :
    encodeRow row = (row.map (fun c => encodeValue c ++ [VALUE_TERMINATOR])).flatten := by
  exact (encodeRow_foldl row []).trans (by rw [List.nil_append])

/-- The outer fold of `encode_rsv`, generalized over its accumulator. -/
theorem encode_rsv_foldl (rows : Doc) :
    ∀ acc : List Nat,
      rows.foldl (fun result row => result ++ encodeRow row ++ [ROW_TERMINATOR]) acc
        = acc ++ (rows.map (fun row => encodeRow row ++ [ROW_TERMINATOR])).flatten := by
  induction rows with
  | nil => intro acc; simp
  | cons r rs ih =>
    intro acc
    rw [List.foldl_cons, ih]
    simp [List.append_assoc]

/-- `encode_rsv` as a flat map: each row's bytes followed by one row
terminator. -/
theorem encode_rsv_eq_flatten (rows : Doc) :
    encode_rsv rows = (rows.map (fun row => encodeRow row ++ [ROW_TERMINATOR])).flatten := by
  exact (encode_rsv_foldl rows []).trans (by rw [List.nil_append])

/-- `encode_rsv` is a homomorphism for document concatenation. -/
theorem encode_rsv_append (d1 d2 : Doc) :
    encode_rsv (d1 ++ d2) = encode_rsv d1 ++ encode_rsv d2 := by
  simp [encode_rsv_eq_flatten]

/-- Appending one row to a document appends its encoding. -/
theorem encode_rsv_concat (d : Doc) (row : Row) :
    encode_rsv (d ++ [row]) = encode_rsv d ++ encodeRow row ++ [ROW_TERMINATOR] := by
  simp [encode_rsv_append, encode_rsv_eq_flatten, List.append_assoc]

/-- Appending one cell to a row appends its encoding. -/
theorem encodeRow_concat (row : Row) (c : Cell) :
    encodeRow (row ++ [c]) = encodeRow row ++ encodeValue c ++ [VALUE_TERMINATOR] := by
  simp [encodeRow_eq_flatten, List.append_assoc]

/-- `encodeRow` on a cons: the head cell's bytes and value terminator come
first. -/
theorem encodeRow_cons (c : Cell) (row : Row) :
    encodeRow (c :: row) = encodeValue c ++ [VALUE_TERMINATOR] ++ encodeRow row := by
  simp [encodeRow_eq_flatten, List.append_assoc]

/-- `encode_rsv` on a cons: the head row's bytes and row terminator come
first. -/
theorem encode_rsv_cons (row : Row) (d : Doc) :
    encode_rsv (row :: d) = encodeRow row ++ [ROW_TERMINATOR] ++ encode_rsv d := by
  simp [encode_rsv_eq_flatten, List.append_assoc]

/-- The encoding of a non-empty document ends with the row terminator. -/
theorem encode_rsv_getLast_rt (rows : Doc) (hne : rows ≠ []) :
    (encode_rsv rows).getLast? = some ROW_TERMINATOR := by
  rcases List.eq_nil_or_concat rows with h | ⟨L, r, h⟩
  · exact absurd h hne
  · subst h
    rw [List.concat_eq_append, encode_rsv_concat, List.getLast?_concat]

/-- The head of `bytes.drop i` is `bytes[i]`. -/
theorem getElem?_of_drop (bytes : List Nat) (i b : Nat) (l : List Nat)
    (h : bytes.drop i = b :: l) : bytes[i]? = some b := by
  have h0 : (bytes.drop i)[0]? = some b := by rw [h]; simp
  rwa [List.getElem?_drop, Nat.add_zero] at h0

/-- Dropping one more byte peels the head off `bytes.drop i`. -/
theorem drop_succ_of_drop (bytes : List Nat) (i b : Nat) (l : List Nat)
    (h : bytes.drop i = b :: l) : bytes.drop (i + 1) = l := by
  rw [← List.drop_drop, h]
  rfl

/-- Valid UTF-8 value bytes contain neither terminator sentinel. -/
theorem validUtf8_run_free (bs : List Nat) (h : validUtf8 bs = true) :
    ∀ b ∈ bs, b ≠ VALUE_TERMINATOR ∧ b ≠ ROW_TERMINATOR := by
  intro b hb
  have hlt := validUtf8_mem_lt bs h b hb
  constructor
  · intro hc; rw [hc] at hlt; exact absurd hlt (by decide)
  · intro hc; rw [hc] at hlt; exact absurd hlt (by decide)

/-- Scanning a run of non-terminator bytes only advances the index: the
row state is untouched. -/
theorem decodeLoop_skip_run (bytes : List Nat) :
    ∀ (run tail : List Nat) (fuel i vs : Nat) (cur : Row) (res : Doc),
      (∀ b ∈ run, b ≠ VALUE_TERMINATOR ∧ b ≠ ROW_TERMINATOR) →
      bytes.drop i = run ++ tail →
      decodeLoop bytes (run.length + fuel) i vs cur res
        = decodeLoop bytes fuel (i + run.length) vs cur res := by
  intro run
  induction run with
  | nil =>
    intro tail fuel i vs cur res _ _
    simp
  | cons b run2 ih =>
    intro tail fuel i vs cur res hfree hdrop
    have hbi : bytes[i]? = some b := getElem?_of_drop bytes i b _ hdrop
    have hdrop2 : bytes.drop (i + 1) = run2 ++ tail :=
      drop_succ_of_drop bytes i b _ hdrop
    obtain ⟨hVT, hRT⟩ := hfree b (List.mem_cons_self _ _)
    have h1 : (b :: run2).length + fuel = (run2.length + fuel) + 1 := by
      simp only [List.length_cons]
      omega
    have h2 : i + (b :: run2).length = (i + 1) + run2.length := by
      simp only [List.length_cons]
      omega
    rw [h1, h2]
    simp only [decodeLoop, hbi]
    rw [if_neg hVT, if_neg hRT]
    exact ih tail fuel (i + 1) vs cur res
      (fun x hx => hfree x (List.mem_cons_of_mem _ hx)) hdrop2

/-- Scanning the encoding of one valid cell — its bytes, then the value
terminator — appends exactly that cell to the current row. -/
theorem decodeLoop_cell (bytes : List Nat) (c : Cell) (tail : List Nat)
    (fuel i : Nat) (cur : Row) (res : Doc)
    (hc : validCell c = true)
    (hdrop : bytes.drop i = encodeValue c ++ [VALUE_TERMINATOR] ++ tail) :
    decodeLoop bytes ((encodeValue c).length + 1 + fuel) i i cur res
      = decodeLoop bytes fuel (i + (encodeValue c).length + 1)
          (i + (encodeValue c).length + 1) (cur ++ [c]) res := by
  have hfree : ∀ b ∈ encodeValue c, b ≠ VALUE_TERMINATOR ∧ b ≠ ROW_TERMINATOR := by
    rcases c with _ | bs
    · intro b hb
      rw [show encodeValue none = [NULL_VALUE] from rfl, List.mem_singleton] at hb
      subst hb
      exact ⟨by decide, by decide⟩
    · exact validUtf8_run_free bs hc
  have hdrop0 : bytes.drop i = encodeValue c ++ ([VALUE_TERMINATOR] ++ tail) := by
    rw [hdrop, List.append_assoc]
  rw [show (encodeValue c).length + 1 + fuel
    = (encodeValue c).length + ((fuel + 1)) from by omega]
  rw [decodeLoop_skip_run bytes (encodeValue c) ([VALUE_TERMINATOR] ++ tail)
    (fuel + 1) i i cur res hfree hdrop0]
  have hdropL : bytes.drop (i + (encodeValue c).length)
      = VALUE_TERMINATOR :: tail := by
    rw [← List.drop_drop, hdrop0, List.drop_left]
    rfl
  have hbT : bytes[i + (encodeValue c).length]? = some VALUE_TERMINATOR :=
    getElem?_of_drop _ _ _ _ hdropL
  have hiL : i + (encodeValue c).length < bytes.length := by
    have hlen := congrArg List.length hdropL
    rw [List.length_drop, List.length_cons] at hlen
    omega
  have hbv : bytes[i]? = some bytes[i] := List.getElem?_eq_getElem (by omega)
  simp only [decodeLoop, hbT, hbv]
  rw [if_pos trivial]
  rw [show i + (encodeValue c).length - i = (encodeValue c).length from by omega]
  rcases c with _ | ⟨_ | ⟨b0, bs2⟩⟩
  · -- c = none: the run is the single null-marker byte
    have hvb : bytes[i] = NULL_VALUE := by
      have h1 := getElem?_of_drop bytes i NULL_VALUE
        (VALUE_TERMINATOR :: tail) (by rw [hdrop]; rfl)
      rw [hbv] at h1
      exact Option.some.inj h1
    rw [if_neg (show ¬((encodeValue none).length = 0) by decide),
      if_pos ⟨show (encodeValue none).length = 1 from rfl, hvb⟩]
  · -- c = Value(""): a zero-length run
    rw [if_pos (show (encodeValue (some ([] : List Nat))).length = 0 from rfl)]
  · -- c = Value(s) with s non-empty: a UTF-8 run
    simp only [validCell] at hc
    have hvb : bytes[i] = b0 := by
      have h1 := getElem?_of_drop bytes i b0
        (bs2 ++ [VALUE_TERMINATOR] ++ tail) (by rw [hdrop]; simp [encodeValue])
      rw [hbv] at h1
      exact Option.some.inj h1
    have hb0lt : b0 < 0xF5 := validUtf8_mem_lt _ hc b0 (List.mem_cons_self _ _)
    simp only [encodeValue] at hdrop0 hiL ⊢
    rw [if_neg (by simp : ¬((b0 :: bs2).length = 0))]
    rw [if_neg (fun hcon =>
      absurd ((hvb.symm.trans hcon.2) ▸ hb0lt) (by decide))]
    have hslice : sliceRange bytes i (i + (b0 :: bs2).length)
        = some (b0 :: bs2) := by
      unfold sliceRange
      rw [if_pos ⟨by omega, by omega⟩,
        show i + (b0 :: bs2).length - i = (b0 :: bs2).length from by omega,
        hdrop0, List.take_left]
    simp only [hslice]
    rw [if_pos hc]

/-- Scanning the encodings of all cells of a valid row appends those cells
to the current row accumulator. -/
theorem decodeLoop_row_cells (bytes : List Nat) :
    ∀ (row : Row) (tail : List Nat) (fuel i : Nat) (cur : Row) (res : Doc),
      row.all validCell = true →
      bytes.drop i = encodeRow row ++ tail →
      decodeLoop bytes ((encodeRow row).length + fuel) i i cur res
        = decodeLoop bytes fuel (i + (encodeRow row).length)
            (i + (encodeRow row).length) (cur ++ row) res := by
  intro row
  induction row with
  | nil =>
    intro tail fuel i cur res _ _
    simp [encodeRow]
  | cons c row2 ih =>
    intro tail fuel i cur res hvalid hdrop
    rw [List.all_cons, Bool.and_eq_true] at hvalid
    obtain ⟨hc, hrow2⟩ := hvalid
    have hlen : (encodeRow (c :: row2)).length
        = (encodeValue c).length + 1 + (encodeRow row2).length := by
      rw [encodeRow_cons]
      simp [List.length_append]
      omega
    rw [hlen]
    have hdrop1 : bytes.drop i
        = encodeValue c ++ [VALUE_TERMINATOR] ++ (encodeRow row2 ++ tail) := by
      rw [hdrop, encodeRow_cons]
      simp [List.append_assoc]
    rw [show (encodeValue c).length + 1 + (encodeRow row2).length + fuel
      = (encodeValue c).length + 1 + ((encodeRow row2).length + fuel) from by omega]
    rw [decodeLoop_cell bytes c (encodeRow row2 ++ tail)
      ((encodeRow row2).length + fuel) i cur res hc hdrop1]
    have hdrop2 : bytes.drop (i + (encodeValue c).length + 1)
        = encodeRow row2 ++ tail := by
      rw [show i + (encodeValue c).length + 1
          = i + ((encodeValue c).length + 1) from by omega,
        ← List.drop_drop, hdrop1]
      exact List.drop_left' (by simp)
    rw [ih tail fuel (i + (encodeValue c).length + 1) (cur ++ [c]) res hrow2 hdrop2]
    have e1 : i + (encodeValue c).length + 1 + (encodeRow row2).length
        = i + ((encodeValue c).length + 1 + (encodeRow row2).length) := by omega
    have e2 : (cur ++ [c]) ++ row2 = cur ++ c :: row2 := by simp
    rw [e1, e2]

/-- Scanning the encodings of all rows of a valid document appends those
rows to the result accumulator. -/
theorem decodeLoop_encoded_rows (bytes : List Nat) :
    ∀ (d : Doc) (tail : List Nat) (fuel i : Nat) (res : Doc),
      validDoc d = true →
      bytes.drop i = encode_rsv d ++ tail →
      decodeLoop bytes ((encode_rsv d).length + fuel) i i [] res
        = decodeLoop bytes fuel (i + (encode_rsv d).length)
            (i + (encode_rsv d).length) [] (res ++ d) := by
  intro d
  induction d with
  | nil =>
    intro tail fuel i res _ _
    simp [encode_rsv]
  | cons row d2 ih =>
    intro tail fuel i res hvalid hdrop
    rw [validDoc, List.all_cons, Bool.and_eq_true] at hvalid
    obtain ⟨hrow, hd2⟩ := hvalid
    have hlen : (encode_rsv (row :: d2)).length
        = (encodeRow row).length + 1 + (encode_rsv d2).length := by
      rw [encode_rsv_cons]
      simp [List.length_append]
      omega
    rw [hlen]
    have hdrop1 : bytes.drop i
        = encodeRow row ++ ([ROW_TERMINATOR] ++ (encode_rsv d2 ++ tail)) := by
      rw [hdrop, encode_rsv_cons]
      simp [List.append_assoc]
    rw [show (encodeRow row).length + 1 + (encode_rsv d2).length + fuel
      = (encodeRow row).length + (((encode_rsv d2).length + fuel) + 1) from by omega]
    rw [decodeLoop_row_cells bytes row ([ROW_TERMINATOR] ++ (encode_rsv d2 ++ tail))
      (((encode_rsv d2).length + fuel) + 1) i [] res hrow hdrop1]
    have hdropK : bytes.drop (i + (encodeRow row).length)
        = ROW_TERMINATOR :: (encode_rsv d2 ++ tail) := by
      rw [← List.drop_drop, hdrop1, List.drop_left]
      rfl
    have hbK : bytes[i + (encodeRow row).length]? = some ROW_TERMINATOR :=
      getElem?_of_drop _ _ _ _ hdropK
    simp only [decodeLoop, hbK]
    rw [if_neg (show ¬(ROW_TERMINATOR = VALUE_TERMINATOR) by decide),
      if_pos trivial, if_neg (fun hcon => hcon.2 rfl)]
    have hdrop2 : bytes.drop (i + (encodeRow row).length + 1)
        = encode_rsv d2 ++ tail :=
      drop_succ_of_drop _ _ _ _ hdropK
    rw [List.nil_append]
    rw [ih tail fuel (i + (encodeRow row).length + 1) (res ++ [row]) hd2 hdrop2]
    have e1 : i + (encodeRow row).length + 1 + (encode_rsv d2).length
        = i + ((encodeRow row).length + 1 + (encode_rsv d2).length) := by omega
    have e2 : (res ++ [row]) ++ d2 = res ++ row :: d2 := by simp
    rw [e1, e2]

/-- The encode/decode round trip holds for every non-empty document whose
cells hold genuine strings (valid UTF-8): decoding the encoding returns
exactly the document.  Together with the failure at the empty document
this isolates the round-trip law's only exception. -/
theorem decode_encode_roundtrip_nonempty (d : Doc)
    (hvalid : validDoc d = true) (hne : d ≠ []) :
    decode_rsv (encode_rsv d) = some (Except.ok d) := by
  unfold decode_rsv
  rw [if_neg (fun hcon => hcon (encode_rsv_getLast_rt d hne))]
  have h := decodeLoop_encoded_rows (encode_rsv d) d [] 0 0 [] hvalid (by simp)
  rw [Nat.add_zero] at h
  rw [h]
  simp only [decodeLoop, List.nil_append]

/-- The multi-row example from the source's module documentation,
`[[Value("Hello user!"), Null], [Value("\n\\'\""), Value("😁🔃📖")]]`,
round-trips byte for byte, multi-byte emoji included. -/
theorem roundtrip_module_doc_example :
    decode_rsv (encode_rsv
      [[some [72, 101, 108, 108, 111, 32, 117, 115, 101, 114, 33], none],
       [some [10, 92, 39, 34],
        some [0xF0, 0x9F, 0x98, 0x81, 0xF0, 0x9F, 0x94, 0x83,
              0xF0, 0x9F, 0x93, 0x96]]])
    = some (Except.ok
      [[some [72, 101, 108, 108, 111, 32, 117, 115, 101, 114, 33], none],
       [some [10, 92, 39, 34],
        some [0xF0, 0x9F, 0x98, 0x81, 0xF0, 0x9F, 0x94, 0x83,
              0xF0, 0x9F, 0x93, 0x96]]]) := by
  rfl

/-- C1: the round-trip law fails at the empty document: `encode_rsv([])` is
the empty buffer, and `decode_rsv` rejects the empty buffer with
`IncompleteRSVDocument` (because `bytes.last()` is `None ≠ Some(&0xFD)`),
instead of returning `Ok([])` as the claim requires. -/
theorem c1_roundtrip_fails_on_empty_document :
    decode_rsv (encode_rsv []) =
      some (Except.error DecodeRSVErrors.IncompleteRSVDocument) := by
  rfl

/-- C2: `decode_rsv` on the empty buffer returns `Err(IncompleteRSVDocument)`,
not `Ok` with the empty document: the pre-check `bytes.last() !=
Some(&ROW_TERMINATOR)` is also true for the empty buffer. -/
theorem c2_empty_buffer_is_rejected :
    decode_rsv [] = some (Except.error DecodeRSVErrors.IncompleteRSVDocument) := by
  rfl

/-- C3: `encode_rsv [[Null]] = [0xFE, 0xFF, 0xFD]` and
`encode_rsv [[Value("")]] = [0xFF, 0xFD]`, and both decode back to their
original documents, so null and empty-string cells are never conflated. -/
theorem c3_null_vs_empty_distinction :
    encode_rsv [[none]] = [0xFE, 0xFF, 0xFD] ∧
    encode_rsv [[some []]] = [0xFF, 0xFD] ∧
    decode_rsv [0xFE, 0xFF, 0xFD] = some (Except.ok [[none]]) ∧
    decode_rsv [0xFF, 0xFD] = some (Except.ok [[some []]]) := by
  refine ⟨rfl, rfl, rfl, rfl⟩

/-- C7: the buffer consisting of the lone row terminator `[0xFD]` decodes to
a document with a single empty row (not zero rows and not an error): at
index 0 the guard `i > 0 && value_start != i` cannot fire. -/
theorem c7_lone_row_terminator_is_single_empty_row :
    decode_rsv [0xFD] = some (Except.ok [[]]) := by
  rfl

/-- C4: every non-empty buffer whose final byte is not `ROW_TERMINATOR` is
rejected with `IncompleteRSVDocument` by the pre-check, before the scan, so
no other error can be reported for it. -/
theorem c4_truncated_buffer_is_incomplete_document (bytes : List Nat)
    (_hne : bytes ≠ []) (hlast : bytes.getLast? ≠ some ROW_TERMINATOR) :
    decode_rsv bytes = some (Except.error DecodeRSVErrors.IncompleteRSVDocument) := by
  unfold decode_rsv
  rw [if_pos hlast]

/-- Witness for C4 at the concrete buffer `[0x41]`. -/
theorem c4_truncated_buffer_is_incomplete_document_witness :
    decode_rsv [0x41] = some (Except.error DecodeRSVErrors.IncompleteRSVDocument) :=
  c4_truncated_buffer_is_incomplete_document [0x41] (by decide) (by decide)

/-- C5: if the scan of a buffer reaches index `i` (in state `value_start`,
`current_row`, `result`, with `bytes.length - i` iterations remaining) and
finds a `ROW_TERMINATOR` there while mid-value (`value_start ≠ i`, `i ≠ 0`),
then `decode_rsv` halts at once with `IncompleteRSVRow (i + 1)`: the 1-based
byte position of the offending terminator. -/
theorem c5_row_terminator_mid_value_is_incomplete_row (bytes : List Nat)
    (i value_start : Nat) (current_row : Row) (result : Doc)
    (hreach : decode_rsv bytes =
      decodeLoop bytes (bytes.length - i) i value_start current_row result)
    (hi : i < bytes.length)
    (hb : bytes[i]? = some ROW_TERMINATOR)
    (h0 : i ≠ 0) (hvs : value_start ≠ i) :
    decode_rsv bytes =
      some (Except.error (DecodeRSVErrors.IncompleteRSVRow (i + 1))) := by
  obtain ⟨fuel, hfuel⟩ : ∃ fuel, bytes.length - i = fuel + 1 :=
    ⟨bytes.length - i - 1, by omega⟩
  rw [hreach, hfuel]
  simp only [decodeLoop, hb]
  rw [if_neg (show ¬(ROW_TERMINATOR = VALUE_TERMINATOR) by decide),
    if_pos trivial, if_pos ⟨Nat.pos_of_ne_zero h0, hvs⟩]

/-- Witness for C5 at the concrete buffer `[0x41, 0xFD]`, where the row
terminator at index 1 falls mid-value. -/
theorem c5_row_terminator_mid_value_is_incomplete_row_witness :
    decode_rsv [0x41, 0xFD] =
      some (Except.error (DecodeRSVErrors.IncompleteRSVRow 2)) :=
  c5_row_terminator_mid_value_is_incomplete_row [0x41, 0xFD] 1 0 [] []
    (by rfl) (by decide) (by rfl) (by decide) (by decide)

/-- C6: if the scan reaches a `VALUE_TERMINATOR` at index `i` and the value
byte run `bytes[value_start..i]` has non-zero length, is not the single
null-marker byte, and fails UTF-8 validation, then `decode_rsv` halts at
once with `InvalidStringValue` carrying that run (which determines the
wrapped `FromUtf8Error`). -/
theorem c6_invalid_utf8_value_is_invalid_string_value (bytes : List Nat)
    (i value_start : Nat) (current_row : Row) (result : Doc)
    (hreach : decode_rsv bytes =
      decodeLoop bytes (bytes.length - i) i value_start current_row result)
    (hi : i < bytes.length) (hvsi : value_start ≤ i)
    (hb : bytes[i]? = some VALUE_TERMINATOR)
    (hlen : i - value_start ≠ 0)
    (hnull : ¬(i - value_start = 1 ∧ bytes[value_start]? = some NULL_VALUE))
    (hutf : validUtf8 ((bytes.drop value_start).take (i - value_start)) = false) :
    decode_rsv bytes =
      some (Except.error (DecodeRSVErrors.InvalidStringValue
        ((bytes.drop value_start).take (i - value_start)))) := by
  obtain ⟨fuel, hfuel⟩ : ∃ fuel, bytes.length - i = fuel + 1 :=
    ⟨bytes.length - i - 1, by omega⟩
  have hvlt : value_start < bytes.length := lt_of_le_of_lt hvsi hi
  have hbv : bytes[value_start]? = some bytes[value_start] :=
    List.getElem?_eq_getElem hvlt
  rw [hreach, hfuel]
  simp only [decodeLoop, hb, hbv]
  rw [if_pos trivial, if_neg hlen,
    if_neg (fun hc => hnull ⟨hc.1, by rw [hbv, hc.2]⟩)]
  have hslice : sliceRange bytes value_start i =
      some ((bytes.drop value_start).take (i - value_start)) := by
    unfold sliceRange
    rw [if_pos ⟨hvsi, le_of_lt hi⟩]
  rw [hslice]
  simp only [hutf]
  rw [if_neg (by simp)]

/-- Witness for C6 at the concrete buffer `[0x80, 0xFF, 0xFD]`: the run
`[0x80]` is a lone continuation byte, hence invalid UTF-8. -/
theorem c6_invalid_utf8_value_is_invalid_string_value_witness :
    decode_rsv [0x80, 0xFF, 0xFD] =
      some (Except.error (DecodeRSVErrors.InvalidStringValue [0x80])) :=
  c6_invalid_utf8_value_is_invalid_string_value [0x80, 0xFF, 0xFD] 1 0 [] []
    (by rfl) (by decide) (by decide) (by rfl) (by decide) (by decide) (by rfl)

/-- The scan loop never returns `none` (never panics): under the loop's real
invariants — `fuel + i = bytes.length` (i.e. `i` ranges over `0..bytes.len()`)
and `value_start ≤ i` — every indexing and slicing operation is in bounds. -/
theorem decodeLoop_isSome (bytes : List Nat) :
    ∀ fuel i value_start current_row result,
      fuel + i = bytes.length → value_start ≤ i →
      (decodeLoop bytes fuel i value_start current_row result).isSome = true := by
  intro fuel
  induction fuel with
  | zero => intro i vs cur res _ _; rfl
  | succ fuel ih =>
    intro i vs cur res hfi hvi
    have hi : i < bytes.length := by omega
    have hbi : bytes[i]? = some bytes[i] := List.getElem?_eq_getElem hi
    have hbv : bytes[vs]? = some bytes[vs] :=
      List.getElem?_eq_getElem (show vs < bytes.length by omega)
    simp only [decodeLoop, hbi, hbv]
    by_cases hVT : bytes[i] = VALUE_TERMINATOR
    · rw [if_pos hVT]
      by_cases hL0 : i - vs = 0
      · rw [if_pos hL0]; exact ih (i+1) (i+1) _ _ (by omega) (by omega)
      · rw [if_neg hL0]
        by_cases hL1 : i - vs = 1 ∧ bytes[vs] = NULL_VALUE
        · rw [if_pos hL1]; exact ih (i+1) (i+1) _ _ (by omega) (by omega)
        · rw [if_neg hL1]
          have hslice : sliceRange bytes vs i =
              some ((bytes.drop vs).take (i - vs)) := by
            unfold sliceRange
            rw [if_pos ⟨hvi, le_of_lt hi⟩]
          cases hutf : validUtf8 ((bytes.drop vs).take (i - vs)) with
          | true =>
            simp only [hslice, hutf, if_true]
            exact ih (i+1) (i+1) _ _ (by omega) (by omega)
          | false =>
            simp only [hslice, hutf, Bool.false_eq_true, if_false]
            rfl
    · rw [if_neg hVT]
      by_cases hRT : bytes[i] = ROW_TERMINATOR
      · rw [if_pos hRT]
        by_cases hg : i > 0 ∧ vs ≠ i
        · rw [if_pos hg]; rfl
        · rw [if_neg hg]; exact ih (i+1) (i+1) _ _ (by omega) (by omega)
      · rw [if_neg hRT]; exact ih (i+1) vs _ _ (by omega) (by omega)

/-- Backward simulation for the scan: if, from a state whose consumed
prefix `bytes.take value_start` re-encodes from the accumulated `result`
and `current_row`, the loop completes with `Ok d`, then the whole buffer is
the canonical encoding of `d`.  The `fuel = 0 → ...` component records that
the loop can only run out of fuel on a clean row boundary, which follows
from the pre-checked final row terminator. -/
theorem decodeLoop_ok_encodes (bytes : List Nat)
    (hlast : bytes.getLast? = some ROW_TERMINATOR) :
    ∀ fuel i value_start current_row result d,
      fuel + i = bytes.length →
      value_start ≤ i →
      (fuel = 0 → value_start = i ∧ current_row = []) →
      bytes.take value_start = encode_rsv result ++ encodeRow current_row →
      decodeLoop bytes fuel i value_start current_row result = some (Except.ok d) →
      encode_rsv d = bytes := by
  intro fuel
  induction fuel with
  | zero =>
    intro i vs cur res d hfi hvi h0 hpre hrun
    obtain ⟨hvs, hcur⟩ := h0 rfl
    simp only [decodeLoop, Option.some.injEq, Except.ok.injEq] at hrun
    rw [← hrun]
    subst hcur
    rw [hvs, show i = bytes.length from by omega, List.take_length,
      show encodeRow ([] : Row) = [] from rfl, List.append_nil] at hpre
    exact hpre.symm
  | succ fuel ih =>
    intro i vs cur res d hfi hvi h0 hpre hrun
    clear h0
    have hi : i < bytes.length := by omega
    have hbi : bytes[i]? = some bytes[i] := List.getElem?_eq_getElem hi
    have hbv : bytes[vs]? = some bytes[vs] :=
      List.getElem?_eq_getElem (show vs < bytes.length by omega)
    have htake : bytes.take (i + 1) = bytes.take i ++ [bytes[i]] := by
      rw [List.take_succ, hbi]
      rfl
    simp only [decodeLoop, hbi, hbv] at hrun
    by_cases hVT : bytes[i] = VALUE_TERMINATOR
    · rw [if_pos hVT] at hrun
      have hnotlast : fuel ≠ 0 := by
        intro hf
        have h1 := getElem?_last_of_getLast? bytes hlast i (by omega)
        rw [hbi] at h1
        have h2 := Option.some.inj h1
        rw [hVT] at h2
        exact absurd h2 (by decide)
      by_cases hL0 : i - vs = 0
      · rw [if_pos hL0] at hrun
        have hvsi : vs = i := by omega
        have hpre' : bytes.take (i + 1)
            = encode_rsv res ++ encodeRow (cur ++ [some []]) := by
          have h1 : bytes.take i = encode_rsv res ++ encodeRow cur := hvsi ▸ hpre
          rw [htake, h1, encodeRow_concat, hVT]
          simp [encodeValue, List.append_assoc]
        exact ih (i + 1) (i + 1) (cur ++ [some []]) res d (by omega) (le_refl _)
          (fun hf => absurd hf hnotlast) hpre' hrun
      · rw [if_neg hL0] at hrun
        by_cases hL1 : i - vs = 1 ∧ bytes[vs] = NULL_VALUE
        · rw [if_pos hL1] at hrun
          have hpre' : bytes.take (i + 1)
              = encode_rsv res ++ encodeRow (cur ++ [none]) := by
            have h1 : bytes.take i = bytes.take vs ++ [bytes[vs]] := by
              conv_lhs => rw [show i = vs + 1 by omega]
              rw [List.take_succ, hbv]
              rfl
            rw [htake, h1, hpre, encodeRow_concat, hL1.2, hVT]
            simp [encodeValue, List.append_assoc]
          exact ih (i + 1) (i + 1) (cur ++ [none]) res d (by omega) (le_refl _)
            (fun hf => absurd hf hnotlast) hpre' hrun
        · rw [if_neg hL1] at hrun
          have hslice : sliceRange bytes vs i =
              some ((bytes.drop vs).take (i - vs)) := by
            unfold sliceRange
            rw [if_pos ⟨hvi, le_of_lt hi⟩]
          cases hutf : validUtf8 ((bytes.drop vs).take (i - vs)) with
          | false =>
            rw [hslice] at hrun
            simp only [hutf, Bool.false_eq_true, if_false] at hrun
            cases hrun
          | true =>
            rw [hslice] at hrun
            simp only [hutf, if_true] at hrun
            have hpre' : bytes.take (i + 1) = encode_rsv res
                ++ encodeRow (cur ++ [some ((bytes.drop vs).take (i - vs))]) := by
              have h1 : bytes.take i
                  = bytes.take vs ++ (bytes.drop vs).take (i - vs) := by
                conv_lhs => rw [show i = vs + (i - vs) by omega]
                exact List.take_add bytes vs (i - vs)
              rw [htake, h1, hpre, encodeRow_concat, hVT]
              simp [encodeValue, List.append_assoc]
            exact ih (i + 1) (i + 1) (cur ++ [some ((bytes.drop vs).take (i - vs))])
              res d (by omega) (le_refl _) (fun hf => absurd hf hnotlast) hpre' hrun
    · rw [if_neg hVT] at hrun
      by_cases hRT : bytes[i] = ROW_TERMINATOR
      · rw [if_pos hRT] at hrun
        by_cases hg : i > 0 ∧ vs ≠ i
        · rw [if_pos hg] at hrun
          cases hrun
        · rw [if_neg hg] at hrun
          have hvsi : vs = i := by omega
          have hpre' : bytes.take (i + 1)
              = encode_rsv (res ++ [cur]) ++ encodeRow [] := by
            have h1 : bytes.take i = encode_rsv res ++ encodeRow cur := hvsi ▸ hpre
            rw [htake, h1, encode_rsv_concat, hRT,
              show encodeRow ([] : Row) = [] from rfl, List.append_nil]
          exact ih (i + 1) (i + 1) [] (res ++ [cur]) d (by omega) (le_refl _)
            (fun _ => ⟨rfl, rfl⟩) hpre' hrun
      · rw [if_neg hRT] at hrun
        have hnotlast : fuel ≠ 0 := by
          intro hf
          have h1 := getElem?_last_of_getLast? bytes hlast i (by omega)
          rw [hbi] at h1
          exact absurd (Option.some.inj h1) hRT
        exact ih (i + 1) vs cur res d (by omega) (by omega)
          (fun hf => absurd hf hnotlast) hpre hrun

/-- C8: `encode_rsv` emits, row by row, each cell's bytes followed by the
value terminator, then one row terminator per row; hence the empty document
encodes to the empty buffer, a zero-cell row contributes exactly the single
byte `ROW_TERMINATOR`, and the encoding of a non-empty document ends with
`ROW_TERMINATOR`. -/
theorem c8_encode_emits_rows_in_order (rows : Doc) :
    encode_rsv rows =
      (rows.map (fun row =>
        (row.map (fun c => encodeValue c ++ [VALUE_TERMINATOR])).flatten
          ++ [ROW_TERMINATOR])).flatten
    ∧ encode_rsv [] = []
    ∧ (∀ pre post : Doc,
        encode_rsv (pre ++ [[]] ++ post)
          = encode_rsv pre ++ [ROW_TERMINATOR] ++ encode_rsv post)
    ∧ (rows ≠ [] → (encode_rsv rows).getLast? = some ROW_TERMINATOR) := by
  refine ⟨?_, rfl, ?_, ?_⟩
  · rw [encode_rsv_eq_flatten]
    congr 1
    exact List.map_congr_left fun row _ => by rw [encodeRow_eq_flatten]
  · intro pre post
    rw [encode_rsv_append, encode_rsv_append]
    simp [encode_rsv_eq_flatten, encodeRow_eq_flatten]
  · intro hne
    rcases List.eq_nil_or_concat rows with h | ⟨L, r, h⟩
    · exact absurd h hne
    · subst h
      rw [List.concat_eq_append, encode_rsv_concat, List.getLast?_concat]

/-- Witness for C8: the final-byte conjunct applied to the concrete
two-row document `[[Value("A")], []]`. -/
theorem c8_encode_emits_rows_in_order_witness :
    (encode_rsv [[some [0x41]], []]).getLast? = some ROW_TERMINATOR :=
  (c8_encode_emits_rows_in_order [[some [0x41]], []]).2.2.2 (by decide)

/-- C9: successful decodings are exactly the canonical encodings: whenever
`decode_rsv` returns `Ok d`, re-encoding `d` reproduces the input buffer
byte for byte — no non-canonical buffer decodes successfully. -/
theorem c9_decode_ok_implies_canonical (bytes : List Nat) (d : Doc)
    (h : decode_rsv bytes = some (Except.ok d)) :
    encode_rsv d = bytes := by
  unfold decode_rsv at h
  by_cases hlast : bytes.getLast? = some ROW_TERMINATOR
  · rw [if_neg (fun hc => hc hlast)] at h
    exact decodeLoop_ok_encodes bytes hlast bytes.length 0 0 [] [] d
      (by omega) (le_refl 0) (fun _ => ⟨rfl, rfl⟩) rfl h
  · rw [if_pos hlast] at h
    simp at h

/-- Witness for C9: decoding the concrete buffer
`[0xFE, 0xFF, 0xFD, 0x41, 0xFF, 0xFD]` yields `[[Null], [Value("A")]]`,
whose re-encoding is that buffer. -/
theorem c9_decode_ok_implies_canonical_witness :
    encode_rsv [[none], [some [0x41]]] = [0xFE, 0xFF, 0xFD, 0x41, 0xFF, 0xFD] :=
  c9_decode_ok_implies_canonical [0xFE, 0xFF, 0xFD, 0x41, 0xFF, 0xFD]
    [[none], [some [0x41]]] (by rfl)

/-- C10: `decode_rsv` is total and panic-free: on every input byte list it
returns `some` result (an `Ok` document or a structured error, never the
`none` that models an out-of-bounds index or slice), because
`value_start ≤ i < bytes.length` holds at every access. -/
theorem c10_decode_rsv_never_panics (bytes : List Nat) :
    (decode_rsv bytes).isSome = true := by
  unfold decode_rsv
  by_cases h : bytes.getLast? ≠ some ROW_TERMINATOR
  · rw [if_pos h]; rfl
  · rw [if_neg h]
    exact decodeLoop_isSome bytes bytes.length 0 0 [] [] (by omega) (by omega)

end RSV
